import Mathlib

/-!
Shallow embedding of the dependency-resolution session core (`src/sess.rs`)
of the bender package manager, together with proofs of the specification
claims about it.

Strings are modelled as lists of characters (`Str`), hash maps as
association lists with insert-overwrite semantics, futures as explicit
`Except`/outcome values, and panics as a distinguished `crash` outcome.
External collaborators that are not part of this file's source (the semver
parser, the BLAKE2 digest, the git subprocess layer, the config data
types) are modelled from the specification and marked as such.
-/

namespace Bender

/-- Strings, modelled as lists of characters (Rust `String`). -/
abbrev Str := List Char

/-- Association-list lookup, first binding wins (models `HashMap::get`). -/
def alLookup {α β : Type} [DecidableEq α] : List (α × β) → α → Option β
  | [], _ => none
  | p :: m, x => if p.1 = x then some p.2 else alLookup m x

/-- Association-list insert, replacing any previous binding for the key
(models `HashMap::insert`). -/
def alInsert {α β : Type} [DecidableEq α] (m : List (α × β)) (k : α) (v : β) :
    List (α × β) :=
  (k, v) :: m.filter (fun p => decide (p.1 ≠ k))

/-- Character comparison by code point (Rust byte-wise `Ord` on strings,
restricted to the ASCII data exercised here). -/
def cmpChar (a b : Char) : Ordering := compare a.toNat b.toNat

/-- Lexicographic string comparison (Rust `Ord for String`). -/
def cmpStr : Str → Str → Ordering
  | [], [] => .eq
  | [], _ :: _ => .lt
  | _ :: _, [] => .gt
  | a :: as, b :: bs =>
    match cmpChar a b with
    | .eq => cmpStr as bs
    | o => o

/-- Modelled from the spec: a semantic version (glossary: "a three-component
(major.minor.patch, plus optional pre-release/build metadata) version number
with a total ordering"), standing in for the external `semver::Version`.
Pre-release identifiers are omitted from the model; build metadata is kept
because it takes part in structural equality but not in precedence. -/
structure Version where
  major : Nat
  minor : Nat
  patch : Nat
  build : Option Str
deriving DecidableEq

/-- Modelled from the spec: precedence comparison of semantic versions
(major, then minor, then patch; build metadata ignored), standing in for
the external `Ord for semver::Version`. -/
def cmpVersion (a b : Version) : Ordering :=
  match compare a.major b.major with
  | .eq =>
    match compare a.minor b.minor with
    | .eq => compare a.patch b.patch
    | o => o
  | o => o

/-- Numeric value of a digit string. -/
def digitsToNat (s : Str) : Nat := s.foldl (fun n c => n * 10 + (c.toNat - 48)) 0

/-- Modelled from the spec: parse one numeric component of a semantic
version (digits only, no leading zero). -/
def parseNat (s : Str) : Option Nat :=
  if s ≠ [] ∧ s.all Char.isDigit = true ∧ (s.head? = some '0' → s = ['0']) then
    some (digitsToNat s)
  else none

/-- Split a string at every occurrence of a separator character. -/
def splitOnChar (sep : Char) : Str → List Str
  | [] => [[]]
  | c :: rest =>
    match splitOnChar sep rest with
    | [] => [[c]]
    | s :: ss => if c = sep then [] :: s :: ss else (c :: s) :: ss

/-- Modelled from the spec: parse the `major.minor.patch` core of a
semantic version, attaching already-split build metadata. -/
def parseCore (core : Str) (build : Option Str) : Option Version :=
  match splitOnChar '.' core with
  | [a, b, c] =>
    match parseNat a, parseNat b, parseNat c with
    | some x, some y, some z => some ⟨x, y, z, build⟩
    | _, _, _ => none
  | _ => none

/-- Modelled from the spec: parse a semantic version string, standing in
for the external `semver::Version::parse` (pre-release forms are not
modelled and fail to parse). -/
def parseVersion (s : Str) : Option Version :=
  match splitOnChar '+' s with
  | [core] => parseCore core none
  | [core, b] => if b = [] then none else parseCore core (some b)
  | _ => none

/-- Where a dependency may be obtained from (`DependencySource`). -/
inductive DependencySource where
  | Registry
  | Path (path : Str)
  | Git (url : Str)
deriving DecidableEq

/-- An entry in the session's dependency table (`DependencyEntry`).
Equality is structural over all four fields, as derived in the source. -/
structure DependencyEntry where
  name : Str
  source : DependencySource
  revision : Option Str
  version : Option Version
deriving DecidableEq

/-- A unique identifier for a dependency (`DependencyRef`), a table index. -/
abbrev DependencyRef := Nat

/-- A table of internalized dependencies (`DependencyTable`): an
insertion-ordered list of entries plus a map from entry to its index. -/
structure DependencyTable where
  list : List DependencyEntry
  ids : List (DependencyEntry × DependencyRef)
deriving DecidableEq

/-- Create a new dependency table (`DependencyTable::new`). -/
def DependencyTable.new : DependencyTable := ⟨[], []⟩

/-- Add a dependency entry to the table (`DependencyTable::add`): reuse the
existing reference if a structurally equal entry is present, otherwise
append the entry and record its index. -/
def DependencyTable.add (t : DependencyTable) (entry : DependencyEntry) :
    DependencyRef × DependencyTable :=
  match alLookup t.ids entry with
  | some id => (id, t)
  | none =>
    let id := t.list.length
    (id, ⟨t.list ++ [entry], alInsert t.ids entry id⟩)

/-- Well-formedness of a dependency table: the `ids` map and the `list`
sequence agree (the source maintains this by construction). -/
def DependencyTable.WF (t : DependencyTable) : Prop :=
  ∀ e i, alLookup t.ids e = some i ↔ t.list[i]? = some e

/-- Modelled from the spec: the error value of the missing `error` module —
either a plain message (`Error::new`) or a message chained onto an
underlying cause (`Error::chain`, "Chained errors must preserve the
original cause for diagnostics"). -/
inductive Error where
  | new (msg : Str)
  | chain (msg : Str) (cause : Error)
deriving DecidableEq

/-- A session on the command line (`Session`). Only the state the claims
concern is modelled: the dependency table and the package name table. The
root path, manifest, configuration, arenas and interned paths are carried
separately by the operations that need them. -/
structure Session where
  deps : DependencyTable
  names : List (Str × DependencyRef)
deriving DecidableEq

/-- Modelled from the spec: a dependency declaration of the missing
`config` module — one of `Version(range)`, `Path(path)`,
`GitRevision(url, rev)`, `GitVersion(url, range)`. -/
inductive ConfigDependency where
  | Version (req : Str)
  | Path (path : Str)
  | GitRevision (url : Str) (rev : Str)
  | GitVersion (url : Str) (req : Str)

/-- The dependency entry built by `Session::load_dependency`: the manifest
declaration is classified into a source, and no revision or version is
pinned. -/
def loadDependencyEntry (name : Str) (cfg : ConfigDependency) : DependencyEntry :=
  let src := match cfg with
    | .Version _ => DependencySource.Registry
    | .Path p => DependencySource.Path p
    | .GitRevision g _ => DependencySource.Git g
    | .GitVersion g _ => DependencySource.Git g
  { name := name, source := src, revision := none, version := none }

/-- Load a dependency stated in a manifest (`Session::load_dependency`). -/
def Session.load_dependency (sess : Session) (name : Str) (cfg : ConfigDependency) :
    DependencyRef × Session :=
  let (id, deps) := sess.deps.add (loadDependencyEntry name cfg)
  (id, { sess with deps := deps })

/-- Modelled from the spec: a locked package source of the missing `config`
module — `Path(path) | Git(url) | Registry(version-string)`. -/
inductive LockedSource where
  | Path (path : Str)
  | Git (url : Str)
  | Registry (version : Str)
deriving DecidableEq

/-- Modelled from the spec: a locked package record of the missing `config`
module — `{source, revision: optional string, version: optional string}`. -/
structure LockedPackage where
  source : LockedSource
  revision : Option Str
  version : Option Str
deriving DecidableEq

/-- Modelled from the spec: a lock file of the missing `config` module — a
mapping from dependency name to a locked package record. -/
structure Locked where
  packages : List (Str × LockedPackage)

/-- The source classification performed by `Session::load_locked`. -/
def lockedSourceToDep : LockedSource → DependencySource
  | .Path p => DependencySource.Path p
  | .Git url => DependencySource.Git url
  | .Registry _ => DependencySource.Registry

/-- The version field built by `Session::load_locked`:
`pkg.version.as_ref().map(|s| semver::Version::parse(&s).unwrap())`. The
`unwrap` panic on an unparsable version string is modelled as `none`. -/
def parseVersionOpt : Option Str → Option (Option Version)
  | none => some none
  | some s =>
    match parseVersion s with
    | some v => some (some v)
    | none => none

/-- One step of the `Session::load_locked` loop: build the pinned
descriptor for a locked package, add it to the table, record its name. -/
def lockedStep (acc : Option (DependencyTable × List (Str × DependencyRef)))
    (p : Str × LockedPackage) : Option (DependencyTable × List (Str × DependencyRef)) :=
  match acc with
  | none => none
  | some (deps, names) =>
    match parseVersionOpt p.2.version with
    | none => none
    | some ver =>
      let (id, deps) := deps.add
        { name := p.1
          source := lockedSourceToDep p.2.source
          revision := p.2.revision
          version := ver }
      some (deps, alInsert names p.1 id)

/-- Load a lock file (`Session::load_locked`): every package is
internalized into the dependency table, and the session's name table is
replaced wholesale by a table built from scratch. -/
def Session.load_locked (sess : Session) (locked : Locked) : Option Session :=
  match locked.packages.foldl lockedStep (some (sess.deps, [])) with
  | none => none
  | some (deps, names) => some { deps := deps, names := names }

/-- Obtain information on a dependency (`Session::dependency`):
`self.deps.lock().unwrap().list[dep.0]`. The out-of-bounds indexing panic
is modelled as `none`. -/
def Session.dependency (sess : Session) (dep : DependencyRef) : Option DependencyEntry :=
  sess.deps.list[dep]?

/-- The not-found message of `Session::dependency_with_name`. -/
def notFoundMsg (name : Str) : Str :=
  "Dependency `".data ++ name ++ "` does not exist. Did you forget to add it to the manifest?".data

/-- Resolve a dependency name to a reference
(`Session::dependency_with_name`). -/
def Session.dependency_with_name (sess : Session) (name : Str) : Except Error DependencyRef :=
  match alLookup sess.names name with
  | some id => Except.ok id
  | none => Except.error (Error.new (notFoundMsg name))

/-- All available versions a git dependency has (`GitVersions`). -/
structure GitVersions where
  versions : List (Version × Str)
  refs : List (Str × Str)
  revs : List Str
deriving DecidableEq

/-- The tag prefix recognized by `SessionIo::git_versions`. -/
def tagPfx : Str := "refs/tags/".data

/-- The branch prefix recognized by `SessionIo::git_versions`. -/
def branchPfx : Str := "refs/remotes/origin/".data

/-- One iteration of the ref-classification loop of
`SessionIo::git_versions`: skip refs whose hash is not a known revision,
split the rest into tags and branches by prefix, drop the others. -/
def classifyStep (revs : List Str) (tb : List (Str × Str) × List (Str × Str))
    (p : Str × Str) : List (Str × Str) × List (Str × Str) :=
  if revs.contains p.1 then
    if tagPfx.isPrefixOf p.2 then (alInsert tb.1 (p.2.drop tagPfx.length) p.1, tb.2)
    else if branchPfx.isPrefixOf p.2 then (tb.1, alInsert tb.2 (p.2.drop branchPfx.length) p.1)
    else tb
  else tb

/-- The ref-classification loop of `SessionIo::git_versions`, producing the
`(tags, branches)` maps. -/
def classifyRefs (refs : List (Str × Str)) (revs : List Str) :
    List (Str × Str) × List (Str × Str) :=
  refs.foldl (classifyStep revs) ([], [])

/-- The semantic version carried by a tag name, when the tag starts with
`v` (`tag.starts_with("v")`) and its suffix (`&tag[1..]`) parses
(`SessionIo::git_versions`). -/
def vTagVersion (tag : Str) : Option Version :=
  match tag with
  | [] => none
  | c :: rest => if c = 'v' then parseVersion rest else none

/-- Extract the `(version, hash)` pairs of the semantically versioned tags
(`SessionIo::git_versions`). -/
def extractVersions (tags : List (Str × Str)) : List (Version × Str) :=
  tags.filterMap (fun p => (vTagVersion p.1).map (fun v => (v, p.2)))

/-- The pair comparison used by the version sort:
`Ord for (semver::Version, String)` — version precedence first, then the
hash string. -/
def cmpPair (a b : Version × Str) : Ordering :=
  match cmpVersion a.1 b.1 with
  | .eq => cmpStr a.2 b.2
  | o => o

/-- The ordering imposed by `versions.sort_by(|a,b| b.cmp(a))`: `a` may
stay before `b` exactly when `a` is not smaller than `b`. -/
def descRel (a b : Version × Str) : Prop := cmpPair a b ≠ .lt

instance : DecidableRel descRel := fun a b => by
  unfold descRel; infer_instance

/-- The descending version sort of `SessionIo::git_versions`
(`versions.sort_by(|a,b| b.cmp(a))`, a stable sort). -/
def sortVersions (l : List (Version × Str)) : List (Version × Str) :=
  l.insertionSort descRel

/-- The merged refs map of `SessionIo::git_versions`
(`branches.into_iter().chain(tags.into_iter()).collect()`): inserting
branches first and tags second, so tags overwrite. -/
def mergedRefs (branches tags : List (Str × Str)) : List (Str × Str) :=
  (branches ++ tags).foldl (fun m p => alInsert m p.1 p.2) []

/-- Determine the list of versions available for a git dependency
(`SessionIo::git_versions`), as a pure function of the listed refs and
revisions. -/
def git_versions (refs : List (Str × Str)) (revs : List Str) : GitVersions :=
  let tb := classifyRefs refs revs
  { versions := sortVersions (extractVersions tb.1)
    refs := mergedRefs tb.2 tb.1
    revs := revs }

/-- The Rust `{:?}` debug rendering of a path, as used in the error
messages and in the checkout hash input: the path surrounded by double
quotes (escaping is not modelled; the inputs exercised contain none). -/
def quoted (s : Str) : Str := '\"' :: (s ++ ['\"'])

/-- The mirror directory of `SessionIo::git_database`:
`<database>/git/db/<name>-<first 16 hex chars of BLAKE2(url)>`. The BLAKE2
digest is an external collaborator and is passed in as `digest`, a
function from input string to hex rendering of the digest. -/
def gitDbDir (database : Str) (digest : Str → Str) (name url : Str) : Str :=
  database ++ "/git/db/".data ++ name ++ "-".data ++ (digest url).take 16

/-- Access the git database for a dependency (`SessionIo::git_database`).
The filesystem and subprocess outcomes are passed in explicitly:
`createDir` for `std::fs::create_dir_all`, `configExists` for the
`db_dir.join("config").exists()` probe, and `initRes`, `remoteAddRes`,
`fetchRes` for the three git subprocess invocations (each an opaque
success or chained failure, per the spec's subprocess interface). Returns
the mirror directory on success. -/
def git_database (database : Str) (digest : Str → Str) (name url : Str)
    (createDir : Except Error Unit) (configExists : Bool)
    (initRes remoteAddRes fetchRes : Except Error Unit) : Except Error Str :=
  let dbDir := gitDbDir database digest name url
  match createDir with
  | .error cause =>
    .error (.chain ("Failed to create git database directory ".data ++
      quoted dbDir ++ ".".data) cause)
  | .ok _ =>
    if configExists then
      match fetchRes with
      | .error e => .error e
      | .ok _ => .ok dbDir
    else
      match (match initRes with
             | .error e => Except.error e
             | .ok _ =>
               match remoteAddRes with
               | .error e => Except.error e
               | .ok _ => fetchRes) with
      | .error cause =>
        .error (.chain ("Failed to initialize git database in ".data ++
          quoted dbDir ++ ".".data) cause)
      | .ok _ => .ok dbDir

/-- The outcome of an operation that may also abort the process: a value,
an error result carried by the returned future, or a crash (`panic`,
raised by `unimplemented` or by `Option::unwrap` on `None`). -/
inductive Outcome (α : Type) where
  | ok (value : α)
  | err (e : Error)
  | crash (msg : Str)
deriving DecidableEq

/-- All available versions of a registry dependency (`RegistryVersions`). -/
inductive RegistryVersions where
  | mk
deriving DecidableEq

/-- All available versions of a dependency (`DependencyVersions`). -/
inductive DependencyVersions where
  | Path
  | Registry (r : RegistryVersions)
  | Git (g : GitVersions)
deriving DecidableEq

/-- The crash message of `unimplemented!("determine available versions of
registry dependency")`. -/
def registryVersionsMsg : Str :=
  "not implemented: determine available versions of registry dependency".data

/-- Determine the available versions for a dependency
(`SessionIo::dependency_versions`). For a git source the mirror
acquisition and the two listing queries are passed in as explicit
outcomes (`dbResult`, `listRefs`, `listRevs`); their successful results
feed the pure `git_versions` classification. -/
def dependency_versions (dep : DependencyEntry)
    (dbResult : Except Error Str)
    (listRefs : Except Error (List (Str × Str)))
    (listRevs : Except Error (List Str)) : Outcome DependencyVersions :=
  match dep.source with
  | .Registry => .crash registryVersionsMsg
  | .Path _ => .ok DependencyVersions.Path
  | .Git _ =>
    match dbResult with
    | .error e => .err e
    | .ok _ =>
      match listRefs, listRevs with
      | .error e, _ => .err e
      | .ok _, .error e => .err e
      | .ok refs, .ok revs => .ok (DependencyVersions.Git (git_versions refs revs))

/-- The input hashed for the checkout directory name
(`SessionIo::checkout`): the remote url, then the debug rendering of the
consuming project's root path. -/
def checkoutHashInput (url root : Str) : Str := url ++ quoted root

/-- The checkout directory name for a git dependency
(`SessionIo::checkout`): `<name>-<first 16 hex chars of
BLAKE2(url, debug(root))>`. -/
def checkout_name (digest : Str → Str) (depName url root : Str) : Str :=
  depName ++ "-".data ++ (digest (checkoutHashInput url root)).take 16

/-- The checkout directory of `SessionIo::checkout`:
`<database>/git/checkouts/<checkout-name>`. -/
def checkoutDir (database : Str) (digest : Str → Str) (depName url root : Str) : Str :=
  database ++ "/git/checkouts/".data ++ checkout_name digest depName url root

/-- Ensure that a proper git checkout exists (`SessionIo::checkout_git`).
The source stubs this step out entirely: it always fails with a plain
error. -/
def checkout_git (_path _url _revision : Str) : Outcome Str :=
  .err (.new "Checkout of git dependency not implemented".data)

/-- The crash message of `Option::unwrap` on `None`
(`dep.revision.as_ref().unwrap()` in `SessionIo::checkout`). -/
def unwrapNoneMsg : Str := "called `Option::unwrap()` on a `None` value".data

/-- The crash message of the bare `unimplemented!()` for registry-sourced
dependencies in `SessionIo::checkout`. -/
def registryCheckoutMsg : Str := "not implemented".data

/-- Ensure that a dependency is checked out and obtain its path
(`SessionIo::checkout`). A path source returns its configured path
immediately; a registry source hits `unimplemented!()` while hashing; a
git source computes the checkout directory, creates it (`createDir` is
the outcome of `std::fs::create_dir_all`), unwraps the pinned revision
(a crash when it is `None`), and delegates to `checkout_git`. -/
def checkout (dep : DependencyEntry) (database root : Str) (digest : Str → Str)
    (createDir : Except Error Unit) : Outcome Str :=
  match dep.source with
  | .Registry => .crash registryCheckoutMsg
  | .Path p => .ok p
  | .Git url =>
    let dir := checkoutDir database digest dep.name url root
    match createDir with
    | .error cause =>
      .err (.chain ("Failed to create git checkout directory ".data ++
        quoted dir ++ ".".data) cause)
    | .ok _ =>
      match dep.revision with
      | none => .crash unwrapNoneMsg
      | some rev => checkout_git dir url rev

/-! Association-list lemmas. -/

theorem alLookup_nil {α β : Type} [DecidableEq α] (k : α) :
    alLookup ([] : List (α × β)) k = none := rfl

theorem alLookup_cons {α β : Type} [DecidableEq α] (p : α × β) (m : List (α × β)) (k : α) :
    alLookup (p :: m) k = if p.1 = k then some p.2 else alLookup m k := rfl

theorem alLookup_filter_ne {α β : Type} [DecidableEq α] (m : List (α × β)) (k k2 : α)
    (h : k2 ≠ k) :
    alLookup (m.filter (fun p => decide (p.1 ≠ k))) k2 = alLookup m k2 := by
  induction m with
  | nil => rfl
  | cons p m ih =>
    by_cases hp : p.1 = k
    · have hne : p.1 ≠ k2 := by
        rw [hp]; exact fun e => h e.symm
      rw [List.filter_cons_of_neg (by simp [hp]), ih, alLookup_cons, if_neg hne]
    · rw [List.filter_cons_of_pos (by simp [hp]), alLookup_cons, alLookup_cons, ih]

theorem alLookup_insert_self {α β : Type} [DecidableEq α] (m : List (α × β)) (k : α) (v : β) :
    alLookup (alInsert m k v) k = some v := by
  simp [alInsert, alLookup_cons]

theorem alLookup_insert_ne {α β : Type} [DecidableEq α] (m : List (α × β)) (k k2 : α) (v : β)
    (h : k2 ≠ k) :
    alLookup (alInsert m k v) k2 = alLookup m k2 := by
  have hk : k ≠ k2 := fun e => h e.symm
  unfold alInsert
  rw [alLookup_cons, if_neg hk]
  exact alLookup_filter_ne m k k2 h

/-- First-some choice on options (`match a with | some v => some v | none => b`). -/
def orOpt {β : Type} (a b : Option β) : Option β :=
  match a with
  | some v => some v
  | none => b

theorem alLookup_append {α β : Type} [DecidableEq α] (a b : List (α × β)) (k : α) :
    alLookup (a ++ b) k = orOpt (alLookup a k) (alLookup b k) := by
  induction a with
  | nil => rfl
  | cons p a ih =>
    by_cases hp : p.1 = k
    · simp [alLookup_cons, hp, orOpt]
    · simp [alLookup_cons, hp, ih]

/-! Dependency-table lemmas. -/

theorem DependencyTable.new_WF : DependencyTable.new.WF := by
  intro e i
  simp [DependencyTable.new, alLookup_nil]

theorem DependencyTable.add_found (t : DependencyTable) (e : DependencyEntry)
    (id : DependencyRef) (h : alLookup t.ids e = some id) :
    t.add e = (id, t) := by
  simp [DependencyTable.add, h]

theorem DependencyTable.add_new (t : DependencyTable) (e : DependencyEntry)
    (h : alLookup t.ids e = none) :
    t.add e = (t.list.length, ⟨t.list ++ [e], alInsert t.ids e t.list.length⟩) := by
  simp [DependencyTable.add, h]

theorem DependencyTable.add_spec (t : DependencyTable) (hwf : t.WF) (e : DependencyEntry) :
    (t.add e).2.list[(t.add e).1]? = some e := by
  cases hl : alLookup t.ids e with
  | some id =>
    rw [t.add_found e id hl]
    exact (hwf e id).mp hl
  | none =>
    rw [t.add_new e hl]
    exact List.getElem?_concat_length t.list e

theorem DependencyTable.add_list_mono (t : DependencyTable) (e : DependencyEntry)
    (i : Nat) (d : DependencyEntry) (h : t.list[i]? = some d) :
    (t.add e).2.list[i]? = some d := by
  cases hl : alLookup t.ids e with
  | some id => rw [t.add_found e id hl]; exact h
  | none =>
    rw [t.add_new e hl]
    rcases List.getElem?_eq_some.mp h with ⟨hi, _⟩
    rw [List.getElem?_append_left hi]
    exact h

theorem DependencyTable.add_WF (t : DependencyTable) (hwf : t.WF) (e : DependencyEntry) :
    (t.add e).2.WF := by
  cases hl : alLookup t.ids e with
  | some id => rw [t.add_found e id hl]; exact hwf
  | none =>
    rw [t.add_new e hl]
    intro e2 i
    by_cases he : e2 = e
    · subst he
      rw [alLookup_insert_self]
      constructor
      · intro h
        cases h
        exact List.getElem?_concat_length t.list e2
      · intro h
        by_cases hi : i < t.list.length
        · rw [List.getElem?_append_left hi] at h
          have := (hwf e2 i).mpr h
          rw [hl] at this
          cases this
        · have hlen : i ≤ t.list.length := by
            rcases List.getElem?_eq_some.mp h with ⟨hb, _⟩
            simpa using Nat.lt_succ_iff.mp (by simpa using hb)
          have : i = t.list.length := Nat.le_antisymm hlen (Nat.le_of_not_lt hi)
          rw [this]
    · rw [alLookup_insert_ne _ _ _ _ he]
      constructor
      · intro h
        have h2 := (hwf e2 i).mp h
        rcases List.getElem?_eq_some.mp h2 with ⟨hi, _⟩
        rw [List.getElem?_append_left hi]
        exact h2
      · intro h
        by_cases hi : i < t.list.length
        · rw [List.getElem?_append_left hi] at h
          exact (hwf e2 i).mpr h
        · rcases List.getElem?_eq_some.mp h with ⟨hb, hv⟩
          have hlen : i = t.list.length := by
            have : i < t.list.length + 1 := by simpa using hb
            exact Nat.le_antisymm (Nat.lt_succ_iff.mp this) (Nat.le_of_not_lt hi)
          subst hlen
          rw [List.getElem?_concat_length] at h
          cases h
          exact absurd rfl he

/-- Folding a sequence of further `add` operations over a table. -/
def foldAdds (t : DependencyTable) (ds : List DependencyEntry) : DependencyTable :=
  ds.foldl (fun tb e => (tb.add e).2) t

theorem foldAdds_list_mono (ds : List DependencyEntry) (t : DependencyTable)
    (i : Nat) (d : DependencyEntry) (h : t.list[i]? = some d) :
    (foldAdds t ds).list[i]? = some d := by
  induction ds generalizing t with
  | nil => exact h
  | cons e ds ih => exact ih (t.add e).2 (t.add_list_mono e i d h)

theorem foldAdds_WF (ds : List DependencyEntry) (t : DependencyTable) (hwf : t.WF) :
    (foldAdds t ds).WF := by
  induction ds generalizing t with
  | nil => exact hwf
  | cons e ds ih => exact ih (t.add e).2 (t.add_WF hwf e)

/-- C1: for every well-formed dependency table, adding a structurally
equal descriptor right after adding it again returns the same reference
and leaves the table (in particular its size) unchanged, while adding a
descriptor that differs in any field returns a distinct reference. -/
theorem dependencyTable_add_dedup (t : DependencyTable) (hwf : t.WF)
    (d1 d2 : DependencyEntry) :
    (d1 = d2 →
      ((t.add d1).2.add d2).1 = (t.add d1).1 ∧
      ((t.add d1).2.add d2).2.list.length = (t.add d1).2.list.length) ∧
    (d1 ≠ d2 → ((t.add d1).2.add d2).1 ≠ (t.add d1).1) := by
  have hwf1 : (t.add d1).2.WF := t.add_WF hwf d1
  constructor
  · intro he
    subst he
    have hspec := t.add_spec hwf d1
    have hid : alLookup (t.add d1).2.ids d1 = some (t.add d1).1 :=
      (hwf1 d1 (t.add d1).1).mpr hspec
    rw [(t.add d1).2.add_found d1 (t.add d1).1 hid]
    exact ⟨rfl, rfl⟩
  · intro hne heq
    have h2 := (t.add d1).2.add_spec hwf1 d2
    have h1 : ((t.add d1).2.add d2).2.list[(t.add d1).1]? = some d1 :=
      (t.add d1).2.add_list_mono d2 (t.add d1).1 d1 (t.add_spec hwf d1)
    rw [heq] at h2
    rw [h2] at h1
    cases h1
    exact hne rfl

/-- A concrete registry entry used in the witnesses. -/
def entA : DependencyEntry :=
  { name := "a".data, source := DependencySource.Registry, revision := none, version := none }

/-- A second concrete entry, differing from `entA` in its name. -/
def entB : DependencyEntry :=
  { name := "b".data, source := DependencySource.Registry, revision := none, version := none }

/-- Witness for C1: the dedup theorem applied to the empty table, once
with two identical entries and once with two distinct ones. -/
theorem dependencyTable_add_dedup_witness :
    (((DependencyTable.new.add entA).2.add entA).1 = (DependencyTable.new.add entA).1 ∧
     ((DependencyTable.new.add entA).2.add entA).2.list.length =
       (DependencyTable.new.add entA).2.list.length) ∧
    ((DependencyTable.new.add entA).2.add entB).1 ≠ (DependencyTable.new.add entA).1 :=
  ⟨(dependencyTable_add_dedup DependencyTable.new DependencyTable.new_WF entA entA).1 rfl,
   (dependencyTable_add_dedup DependencyTable.new DependencyTable.new_WF entA entB).2
     (by decide)⟩

/-- C2: a reference returned by `add` on a well-formed table still
resolves, through `Session::dependency`, to exactly the descriptor that
produced it after any later sequence of `add` operations, while any index
at or beyond the table's size fails to resolve (the out-of-bounds
invariant violation, modelled as `none`). -/
theorem session_dependency_roundtrip (t : DependencyTable) (hwf : t.WF)
    (d : DependencyEntry) (ds : List DependencyEntry)
    (names : List (Str × DependencyRef)) :
    (Session.dependency ⟨foldAdds (t.add d).2 ds, names⟩ (t.add d).1 = some d) ∧
    (∀ i, (foldAdds (t.add d).2 ds).list.length ≤ i →
      Session.dependency ⟨foldAdds (t.add d).2 ds, names⟩ i = none) := by
  constructor
  · exact foldAdds_list_mono ds (t.add d).2 (t.add d).1 d (t.add_spec hwf d)
  · intro i hi
    exact List.getElem?_eq_none hi

/-- Witness for C2: the round-trip theorem applied to the empty table,
with one later insertion and the out-of-bounds index 7. -/
theorem session_dependency_roundtrip_witness :
    (Session.dependency ⟨foldAdds (DependencyTable.new.add entA).2 [entB], []⟩
      (DependencyTable.new.add entA).1 = some entA) ∧
    (Session.dependency ⟨foldAdds (DependencyTable.new.add entA).2 [entB], []⟩ 7 = none) :=
  ⟨(session_dependency_roundtrip DependencyTable.new DependencyTable.new_WF entA [entB] []).1,
   (session_dependency_roundtrip DependencyTable.new DependencyTable.new_WF entA [entB] []).2
     7 (by decide)⟩

/-! Lemmas about `Session::load_locked`. -/

theorem lockedFold_none (ps : List (Str × LockedPackage)) :
    ps.foldl lockedStep none = none := by
  induction ps with
  | nil => rfl
  | cons p ps ih => exact ih

/-- The combined induction lemma for the `load_locked` loop: the table
stays well-formed, existing slots are untouched, names outside the loaded
packages resolve as before, and every loaded package resolves to a slot
holding its pinned descriptor. -/
theorem lockedFold_spec (ps : List (Str × LockedPackage))
    (t : DependencyTable) (m : List (Str × DependencyRef))
    (hwf : t.WF) (hnd : (ps.map Prod.fst).Nodup)
    (t2 : DependencyTable) (m2 : List (Str × DependencyRef))
    (heq : ps.foldl lockedStep (some (t, m)) = some (t2, m2)) :
    t2.WF ∧
    (∀ (i : Nat) (e : DependencyEntry), t.list[i]? = some e → t2.list[i]? = some e) ∧
    (∀ n, n ∉ ps.map Prod.fst → alLookup m2 n = alLookup m n) ∧
    (∀ n pkg, (n, pkg) ∈ ps → ∃ r v, parseVersionOpt pkg.version = some v ∧
      t2.list[r]? = some
        { name := n, source := lockedSourceToDep pkg.source,
          revision := pkg.revision, version := v } ∧
      alLookup m2 n = some r) := by
  induction ps generalizing t m with
  | nil =>
    cases heq
    exact ⟨hwf, fun _ _ h => h, fun _ _ => rfl, fun n pkg h => absurd h (List.not_mem_nil _)⟩
  | cons p ps ih =>
    rw [List.foldl_cons] at heq
    cases hv : parseVersionOpt p.2.version with
    | none =>
      rw [lockedStep, hv] at heq
      rw [lockedFold_none] at heq
      cases heq
    | some v0 =>
      have hstep : lockedStep (some (t, m)) p =
          some ((t.add
            { name := p.1, source := lockedSourceToDep p.2.source,
              revision := p.2.revision, version := v0 }).2,
            alInsert m p.1 (t.add
            { name := p.1, source := lockedSourceToDep p.2.source,
              revision := p.2.revision, version := v0 }).1) := by
        rw [lockedStep, hv]
      rw [hstep] at heq
      rw [List.map_cons, List.nodup_cons] at hnd
      set e0 : DependencyEntry :=
        { name := p.1, source := lockedSourceToDep p.2.source,
          revision := p.2.revision, version := v0 } with he0
      obtain ⟨ihwf, ihmono, ihnames, ihpkg⟩ :=
        ih (t.add e0).2 (alInsert m p.1 (t.add e0).1) (t.add_WF hwf e0) hnd.2 heq
      refine ⟨ihwf, ?_, ?_, ?_⟩
      · intro i e h
        exact ihmono i e (t.add_list_mono e0 i e h)
      · intro n hn
        rw [List.map_cons, List.mem_cons] at hn
        push_neg at hn
        rw [ihnames n hn.2]
        exact alLookup_insert_ne m p.1 n (t.add e0).1 hn.1
      · intro n pkg hmem
        rcases List.mem_cons.mp hmem with hhead | htail
        · have hn : n = p.1 := congrArg Prod.fst hhead
          have hp : pkg = p.2 := congrArg Prod.snd hhead
          subst hn hp
          refine ⟨(t.add e0).1, v0, hv, ?_, ?_⟩
          · exact ihmono (t.add e0).1 e0 (t.add_spec hwf e0)
          · rw [ihnames p.1 hnd.1]
            exact alLookup_insert_self m p.1 (t.add e0).1
        · exact ihpkg n pkg htail

/-- C3: after a successful `load_locked`, `dependency_with_name` succeeds
exactly on the names of the lock file's packages, yielding a reference
whose table slot carries that package's source, pinned revision and
parsed version; every other name — including one that resolved only under
an earlier lock load, since the name table is rebuilt from scratch —
fails with the not-found error carrying the offending name. -/
theorem session_load_locked_name_resolution (sess : Session) (hwf : sess.deps.WF)
    (locked : Locked) (hnd : (locked.packages.map Prod.fst).Nodup)
    (s2 : Session) (hload : sess.load_locked locked = some s2) :
    (∀ n pkg, (n, pkg) ∈ locked.packages → ∃ r v,
      parseVersionOpt pkg.version = some v ∧
      s2.dependency_with_name n = Except.ok r ∧
      s2.deps.list[r]? = some
        { name := n, source := lockedSourceToDep pkg.source,
          revision := pkg.revision, version := v }) ∧
    (∀ n, n ∉ locked.packages.map Prod.fst →
      s2.dependency_with_name n = Except.error (Error.new (notFoundMsg n))) := by
  unfold Session.load_locked at hload
  cases hfold : locked.packages.foldl lockedStep (some (sess.deps, [])) with
  | none => rw [hfold] at hload; cases hload
  | some r =>
    rw [hfold] at hload
    cases hload
    obtain ⟨_, _, hnames, hpkg⟩ :=
      lockedFold_spec locked.packages sess.deps [] hwf hnd r.1 r.2 hfold
    constructor
    · intro n pkg hmem
      obtain ⟨rf, v, hv, hslot, hname⟩ := hpkg n pkg hmem
      refine ⟨rf, v, hv, ?_, hslot⟩
      unfold Session.dependency_with_name
      rw [hname]
    · intro n hn
      unfold Session.dependency_with_name
      rw [hnames n hn, alLookup_nil]

/-- A concrete locked package used in the C3 witness. -/
def pkgFoo : LockedPackage :=
  { source := LockedSource.Git "https://example.com/foo.git".data,
    revision := some "0123abcd".data,
    version := some "1.2.3".data }

/-- A concrete lock file with the single package `foo`. -/
def lockedFoo : Locked := { packages := [("foo".data, pkgFoo)] }

/-- The session produced by loading `lockedFoo` into an empty session. -/
def sessFoo : Session :=
  { deps :=
      { list := [{ name := "foo".data,
                   source := DependencySource.Git "https://example.com/foo.git".data,
                   revision := some "0123abcd".data,
                   version := some ⟨1, 2, 3, none⟩ }],
        ids := [({ name := "foo".data,
                   source := DependencySource.Git "https://example.com/foo.git".data,
                   revision := some "0123abcd".data,
                   version := some ⟨1, 2, 3, none⟩ }, 0)] },
    names := [("foo".data, 0)] }

/-- Witness for C3: the resolution theorem applied to an empty session and
the one-package lock file `lockedFoo`. -/
theorem session_load_locked_name_resolution_witness :
    (∃ r v, parseVersionOpt pkgFoo.version = some v ∧
      sessFoo.dependency_with_name "foo".data = Except.ok r ∧
      sessFoo.deps.list[r]? = some
        { name := "foo".data, source := lockedSourceToDep pkgFoo.source,
          revision := pkgFoo.revision, version := v }) ∧
    sessFoo.dependency_with_name "bar".data =
      Except.error (Error.new (notFoundMsg "bar".data)) :=
  ⟨(session_load_locked_name_resolution ⟨DependencyTable.new, []⟩ DependencyTable.new_WF
      lockedFoo (by decide) sessFoo (by decide)).1 "foo".data pkgFoo (by decide),
   (session_load_locked_name_resolution ⟨DependencyTable.new, []⟩ DependencyTable.new_WF
      lockedFoo (by decide) sessFoo (by decide)).2 "bar".data (by decide)⟩

/-! Lemmas about the ref classification of `SessionIo::git_versions`. -/

theorem isPrefixOf_append {α : Type} [DecidableEq α] (a b : List α) :
    a.isPrefixOf (a ++ b) = true :=
  List.isPrefixOf_iff_prefix.mpr ⟨b, rfl⟩

theorem append_of_isPrefixOf {α : Type} [DecidableEq α] (a l : List α)
    (h : a.isPrefixOf l = true) : l = a ++ l.drop a.length := by
  rcases List.isPrefixOf_iff_prefix.mp h with ⟨t, ht⟩
  rw [← ht, List.drop_left]

theorem tagPfx_not_prefix_of_branch (name : Str) :
    tagPfx.isPrefixOf (branchPfx ++ name) = false := by
  have ht : tagPfx = ['r', 'e', 'f', 's', '/', 't', 'a', 'g', 's', '/'] := rfl
  have hb : branchPfx = ['r', 'e', 'f', 's', '/', 'r', 'e', 'm', 'o', 't', 'e', 's', '/',
    'o', 'r', 'i', 'g', 'i', 'n', '/'] := rfl
  rw [ht, hb]
  simp [List.isPrefixOf]

/-- Keys of an association list are distinct. -/
def keysNodup {α β : Type} (m : List (α × β)) : Prop := (m.map Prod.fst).Nodup

theorem alInsert_keysNodup {α β : Type} [DecidableEq α] (m : List (α × β)) (k : α) (v : β)
    (h : keysNodup m) : keysNodup (alInsert m k v) := by
  unfold keysNodup alInsert
  rw [List.map_cons, List.nodup_cons]
  constructor
  · intro hmem
    rcases List.mem_map.mp hmem with ⟨p, hp, hk⟩
    have := List.of_mem_filter hp
    rw [hk] at this
    simp at this
  · exact List.Nodup.sublist (List.Sublist.map Prod.fst (List.filter_sublist m)) h

theorem alLookup_insert_isSome {α β : Type} [DecidableEq α] (m : List (α × β)) (k k2 : α)
    (v : β) (h : (alLookup m k2).isSome = true) :
    (alLookup (alInsert m k v) k2).isSome = true := by
  by_cases hk : k2 = k
  · subst hk
    rw [alLookup_insert_self]
    rfl
  · rw [alLookup_insert_ne _ _ _ _ hk]
    exact h

theorem alLookup_none_of_not_mem_keys {α β : Type} [DecidableEq α] (m : List (α × β)) (k : α)
    (h : k ∉ m.map Prod.fst) : alLookup m k = none := by
  induction m with
  | nil => rfl
  | cons p m ih =>
    rw [List.map_cons, List.mem_cons] at h
    push_neg at h
    rw [alLookup_cons, if_neg (fun e => h.1 e.symm)]
    exact ih h.2

theorem alLookup_reverse_of_nodup {α β : Type} [DecidableEq α] (m : List (α × β)) (k : α)
    (h : keysNodup m) : alLookup m.reverse k = alLookup m k := by
  induction m with
  | nil => rfl
  | cons p m ih =>
    unfold keysNodup at h
    rw [List.map_cons, List.nodup_cons] at h
    rw [List.reverse_cons, alLookup_append, ih h.2]
    by_cases hk : p.1 = k
    · subst hk
      rw [alLookup_none_of_not_mem_keys m p.1 h.1, alLookup_cons, if_pos rfl, alLookup_cons,
        if_pos rfl]
      rfl
    · rw [alLookup_cons, if_neg hk, alLookup_cons, if_neg hk, alLookup_nil]
      cases alLookup m k <;> rfl

theorem alLookup_foldInsert {α β : Type} [DecidableEq α] (l m : List (α × β)) (k : α) :
    alLookup (l.foldl (fun acc p => alInsert acc p.1 p.2) m) k =
      orOpt (alLookup l.reverse k) (alLookup m k) := by
  induction l generalizing m with
  | nil => rfl
  | cons p l ih =>
    rw [List.foldl_cons, ih, List.reverse_cons, alLookup_append]
    by_cases hk : p.1 = k
    · subst hk
      rw [alLookup_insert_self, alLookup_cons, if_pos rfl]
      cases alLookup l.reverse p.1 <;> rfl
    · rw [alLookup_insert_ne _ _ _ _ (fun e => hk e.symm), alLookup_cons, if_neg hk,
        alLookup_nil]
      cases alLookup l.reverse k <;> rfl

/-- One classification step leaves a ref with an unknown hash, or one
matching neither prefix, without effect. -/
theorem classifyStep_skip (revs : List Str) (tb : List (Str × Str) × List (Str × Str))
    (h0 rf : Str)
    (h : revs.contains h0 = false ∨
      (tagPfx.isPrefixOf rf = false ∧ branchPfx.isPrefixOf rf = false)) :
    classifyStep revs tb (h0, rf) = tb := by
  rcases h with h | ⟨h1, h2⟩
  · unfold classifyStep
    rw [h]
    simp
  · unfold classifyStep
    rw [h1, h2]
    simp

theorem classifyRefs_skip (pre post : List (Str × Str)) (revs : List Str) (h0 rf : Str)
    (h : revs.contains h0 = false ∨
      (tagPfx.isPrefixOf rf = false ∧ branchPfx.isPrefixOf rf = false)) :
    classifyRefs (pre ++ (h0, rf) :: post) revs = classifyRefs (pre ++ post) revs := by
  unfold classifyRefs
  rw [List.foldl_append, List.foldl_append, List.foldl_cons,
    classifyStep_skip revs _ h0 rf h]

/-- Soundness of the tags map: every binding traces back to a listed tag
ref with a known hash. -/
theorem classifyFold_tags_sound (refs : List (Str × Str)) (revs : List Str)
    (acc : List (Str × Str) × List (Str × Str)) (name hsh : Str)
    (h : alLookup (refs.foldl (classifyStep revs) acc).1 name = some hsh) :
    ((hsh, tagPfx ++ name) ∈ refs ∧ revs.contains hsh = true) ∨
      alLookup acc.1 name = some hsh := by
  induction refs generalizing acc with
  | nil => exact Or.inr h
  | cons p refs ih =>
    rw [List.foldl_cons] at h
    rcases ih (classifyStep revs acc p) h with hrest | hacc
    · exact Or.inl ⟨List.mem_cons_of_mem p hrest.1, hrest.2⟩
    · unfold classifyStep at hacc
      by_cases hc : revs.contains p.1
      · rw [if_pos hc] at hacc
        by_cases htag : tagPfx.isPrefixOf p.2
        · rw [if_pos htag] at hacc
          by_cases hname : name = p.2.drop tagPfx.length
          · subst hname
            rw [alLookup_insert_self] at hacc
            cases hacc
            refine Or.inl ⟨?_, hc⟩
            have := append_of_isPrefixOf tagPfx p.2 htag
            rw [← this]
            exact List.mem_cons_self p refs
          · rw [alLookup_insert_ne _ _ _ _ hname] at hacc
            exact Or.inr hacc
        · rw [if_neg htag] at hacc
          by_cases hbr : branchPfx.isPrefixOf p.2
          · rw [if_pos hbr] at hacc
            exact Or.inr hacc
          · rw [if_neg hbr] at hacc
            exact Or.inr hacc
      · rw [if_neg hc] at hacc
        exact Or.inr hacc

/-- Soundness of the branches map: every binding traces back to a listed
branch ref with a known hash. -/
theorem classifyFold_branches_sound (refs : List (Str × Str)) (revs : List Str)
    (acc : List (Str × Str) × List (Str × Str)) (name hsh : Str)
    (h : alLookup (refs.foldl (classifyStep revs) acc).2 name = some hsh) :
    ((hsh, branchPfx ++ name) ∈ refs ∧ revs.contains hsh = true) ∨
      alLookup acc.2 name = some hsh := by
  induction refs generalizing acc with
  | nil => exact Or.inr h
  | cons p refs ih =>
    rw [List.foldl_cons] at h
    rcases ih (classifyStep revs acc p) h with hrest | hacc
    · exact Or.inl ⟨List.mem_cons_of_mem p hrest.1, hrest.2⟩
    · unfold classifyStep at hacc
      by_cases hc : revs.contains p.1
      · rw [if_pos hc] at hacc
        by_cases htag : tagPfx.isPrefixOf p.2
        · rw [if_pos htag] at hacc
          exact Or.inr hacc
        · rw [if_neg htag] at hacc
          by_cases hbr : branchPfx.isPrefixOf p.2
          · rw [if_pos hbr] at hacc
            by_cases hname : name = p.2.drop branchPfx.length
            · subst hname
              rw [alLookup_insert_self] at hacc
              cases hacc
              refine Or.inl ⟨?_, hc⟩
              have := append_of_isPrefixOf branchPfx p.2 hbr
              rw [← this]
              exact List.mem_cons_self p refs
            · rw [alLookup_insert_ne _ _ _ _ hname] at hacc
              exact Or.inr hacc
          · rw [if_neg hbr] at hacc
            exact Or.inr hacc
      · rw [if_neg hc] at hacc
        exact Or.inr hacc

/-- One classification step never deletes a tags binding. -/
theorem classifyStep_tags_isSome (revs : List Str)
    (acc : List (Str × Str) × List (Str × Str)) (p : Str × Str) (name : Str)
    (h : (alLookup acc.1 name).isSome = true) :
    (alLookup (classifyStep revs acc p).1 name).isSome = true := by
  unfold classifyStep
  by_cases hc : revs.contains p.1
  · rw [if_pos hc]
    by_cases htag : tagPfx.isPrefixOf p.2
    · rw [if_pos htag]
      exact alLookup_insert_isSome _ _ _ _ h
    · rw [if_neg htag]
      by_cases hbr : branchPfx.isPrefixOf p.2
      · rw [if_pos hbr]; exact h
      · rw [if_neg hbr]; exact h
  · rw [if_neg hc]; exact h

/-- One classification step never deletes a branches binding. -/
theorem classifyStep_branches_isSome (revs : List Str)
    (acc : List (Str × Str) × List (Str × Str)) (p : Str × Str) (name : Str)
    (h : (alLookup acc.2 name).isSome = true) :
    (alLookup (classifyStep revs acc p).2 name).isSome = true := by
  unfold classifyStep
  by_cases hc : revs.contains p.1
  · rw [if_pos hc]
    by_cases htag : tagPfx.isPrefixOf p.2
    · rw [if_pos htag]; exact h
    · rw [if_neg htag]
      by_cases hbr : branchPfx.isPrefixOf p.2
      · rw [if_pos hbr]
        exact alLookup_insert_isSome _ _ _ _ h
      · rw [if_neg hbr]; exact h
  · rw [if_neg hc]; exact h

theorem classifyFold_tags_isSome (refs : List (Str × Str)) (revs : List Str)
    (acc : List (Str × Str) × List (Str × Str)) (name : Str)
    (h : (alLookup acc.1 name).isSome = true) :
    (alLookup (refs.foldl (classifyStep revs) acc).1 name).isSome = true := by
  induction refs generalizing acc with
  | nil => exact h
  | cons p refs ih =>
    rw [List.foldl_cons]
    exact ih (classifyStep revs acc p) (classifyStep_tags_isSome revs acc p name h)

theorem classifyFold_branches_isSome (refs : List (Str × Str)) (revs : List Str)
    (acc : List (Str × Str) × List (Str × Str)) (name : Str)
    (h : (alLookup acc.2 name).isSome = true) :
    (alLookup (refs.foldl (classifyStep revs) acc).2 name).isSome = true := by
  induction refs generalizing acc with
  | nil => exact h
  | cons p refs ih =>
    rw [List.foldl_cons]
    exact ih (classifyStep revs acc p) (classifyStep_branches_isSome revs acc p name h)

/-- Completeness of the tags map: a listed tag ref with a known hash
yields a binding for the stripped name. -/
theorem classifyFold_tags_complete (refs : List (Str × Str)) (revs : List Str)
    (acc : List (Str × Str) × List (Str × Str)) (name hsh : Str)
    (hmem : (hsh, tagPfx ++ name) ∈ refs) (hc : revs.contains hsh = true) :
    (alLookup (refs.foldl (classifyStep revs) acc).1 name).isSome = true := by
  induction refs generalizing acc with
  | nil => cases hmem
  | cons p refs ih =>
    rw [List.foldl_cons]
    rcases List.mem_cons.mp hmem with hhead | htail
    · subst hhead
      apply classifyFold_tags_isSome
      unfold classifyStep
      rw [if_pos hc, if_pos (isPrefixOf_append tagPfx name), List.drop_left]
      rw [alLookup_insert_self]
      rfl
    · exact ih (classifyStep revs acc p) htail

/-- Completeness of the branches map: a listed branch ref with a known
hash yields a binding for the stripped name. -/
theorem classifyFold_branches_complete (refs : List (Str × Str)) (revs : List Str)
    (acc : List (Str × Str) × List (Str × Str)) (name hsh : Str)
    (hmem : (hsh, branchPfx ++ name) ∈ refs) (hc : revs.contains hsh = true) :
    (alLookup (refs.foldl (classifyStep revs) acc).2 name).isSome = true := by
  induction refs generalizing acc with
  | nil => cases hmem
  | cons p refs ih =>
    rw [List.foldl_cons]
    rcases List.mem_cons.mp hmem with hhead | htail
    · subst hhead
      apply classifyFold_branches_isSome
      unfold classifyStep
      rw [if_pos hc, tagPfx_not_prefix_of_branch name]
      simp only [Bool.false_eq_true, if_false]
      rw [if_pos (isPrefixOf_append branchPfx name), List.drop_left]
      rw [alLookup_insert_self]
      rfl
    · exact ih (classifyStep revs acc p) htail

/-- The classification maps have distinct keys. -/
theorem classifyFold_keysNodup (refs : List (Str × Str)) (revs : List Str)
    (acc : List (Str × Str) × List (Str × Str))
    (h1 : keysNodup acc.1) (h2 : keysNodup acc.2) :
    keysNodup (refs.foldl (classifyStep revs) acc).1 ∧
      keysNodup (refs.foldl (classifyStep revs) acc).2 := by
  induction refs generalizing acc with
  | nil => exact ⟨h1, h2⟩
  | cons p refs ih =>
    rw [List.foldl_cons]
    apply ih
    · unfold classifyStep
      by_cases hc : revs.contains p.1
      · rw [if_pos hc]
        by_cases htag : tagPfx.isPrefixOf p.2
        · rw [if_pos htag]
          exact alInsert_keysNodup _ _ _ h1
        · rw [if_neg htag]
          by_cases hbr : branchPfx.isPrefixOf p.2
          · rw [if_pos hbr]; exact h1
          · rw [if_neg hbr]; exact h1
      · rw [if_neg hc]; exact h1
    · unfold classifyStep
      by_cases hc : revs.contains p.1
      · rw [if_pos hc]
        by_cases htag : tagPfx.isPrefixOf p.2
        · rw [if_pos htag]; exact h2
        · rw [if_neg htag]
          by_cases hbr : branchPfx.isPrefixOf p.2
          · rw [if_pos hbr]
            exact alInsert_keysNodup _ _ _ h2
          · rw [if_neg hbr]; exact h2
      · rw [if_neg hc]; exact h2

theorem mergedRefs_lookup (branches tags : List (Str × Str)) (k : Str)
    (hb : keysNodup branches) (ht : keysNodup tags) :
    alLookup (mergedRefs branches tags) k =
      orOpt (alLookup tags k) (alLookup branches k) := by
  unfold mergedRefs
  rw [alLookup_foldInsert, List.reverse_append, alLookup_append,
    alLookup_reverse_of_nodup _ _ ht, alLookup_reverse_of_nodup _ _ hb, alLookup_nil]
  cases alLookup tags k <;> cases alLookup branches k <;> rfl

/-- C4: the ref classification of `git_versions` (a) drops every ref whose
target hash is not a known revision and every ref matching neither the
tag nor the branch prefix; (b) each binding of the tags (resp. branches)
map comes from a listed ref with the corresponding prefix, stripped, and
a known hash; (c) every listed tag (resp. branch) ref with a known hash
produces a binding for its stripped name; and (d) the merged `refs` map
resolves a name to its tag hash when one exists and to its branch hash
otherwise — tags overlay branches. -/
theorem git_versions_ref_classification (refs : List (Str × Str)) (revs : List Str) :
    (∀ (pre post : List (Str × Str)) (h0 rf : Str),
      (revs.contains h0 = false ∨
        (tagPfx.isPrefixOf rf = false ∧ branchPfx.isPrefixOf rf = false)) →
      classifyRefs (pre ++ (h0, rf) :: post) revs = classifyRefs (pre ++ post) revs) ∧
    (∀ name hsh, alLookup (classifyRefs refs revs).1 name = some hsh →
      (hsh, tagPfx ++ name) ∈ refs ∧ revs.contains hsh = true) ∧
    (∀ name hsh, alLookup (classifyRefs refs revs).2 name = some hsh →
      (hsh, branchPfx ++ name) ∈ refs ∧ revs.contains hsh = true) ∧
    (∀ name hsh, (hsh, tagPfx ++ name) ∈ refs → revs.contains hsh = true →
      (alLookup (classifyRefs refs revs).1 name).isSome = true) ∧
    (∀ name hsh, (hsh, branchPfx ++ name) ∈ refs → revs.contains hsh = true →
      (alLookup (classifyRefs refs revs).2 name).isSome = true) ∧
    (∀ k, alLookup (git_versions refs revs).refs k =
      orOpt (alLookup (classifyRefs refs revs).1 k)
        (alLookup (classifyRefs refs revs).2 k)) := by
  refine ⟨fun pre post h0 rf h => classifyRefs_skip pre post revs h0 rf h, ?_, ?_, ?_, ?_, ?_⟩
  · intro name hsh h
    rcases classifyFold_tags_sound refs revs ([], []) name hsh h with hgood | hbad
    · exact hgood
    · rw [alLookup_nil] at hbad
      cases hbad
  · intro name hsh h
    rcases classifyFold_branches_sound refs revs ([], []) name hsh h with hgood | hbad
    · exact hgood
    · rw [alLookup_nil] at hbad
      cases hbad
  · intro name hsh hmem hc
    exact classifyFold_tags_complete refs revs ([], []) name hsh hmem hc
  · intro name hsh hmem hc
    exact classifyFold_branches_complete refs revs ([], []) name hsh hmem hc
  · intro k
    have hnd := classifyFold_keysNodup refs revs ([], []) List.nodup_nil List.nodup_nil
    exact mergedRefs_lookup (classifyRefs refs revs).2 (classifyRefs refs revs).1 k
      hnd.2 hnd.1

/-- The refs listing of the specification's ref-classification example,
extended with one dangling ref. -/
def demoRefs : List (Str × Str) :=
  [("abc123".data, "refs/tags/v1.2.0".data),
   ("def456".data, "refs/tags/v2.0.0".data),
   ("abc123".data, "refs/remotes/origin/main".data),
   ("zzz999".data, "refs/tags/v9.9.9".data)]

/-- The known revisions of the ref-classification example. -/
def demoRevs : List Str := ["abc123".data, "def456".data]

/-- Witness for C4: on the specification's example, the dangling ref is
dropped, the surviving bindings trace to their refs, both prefixes
produce bindings, and the merged map resolves `main` to the branch hash. -/
theorem git_versions_ref_classification_witness :
    (classifyRefs demoRefs demoRevs =
      classifyRefs (demoRefs.take 3 ++ []) demoRevs) ∧
    (("def456".data, tagPfx ++ "v2.0.0".data) ∈ demoRefs ∧
      demoRevs.contains "def456".data = true) ∧
    ((alLookup (classifyRefs demoRefs demoRevs).1 "v1.2.0".data).isSome = true) ∧
    ((alLookup (classifyRefs demoRefs demoRevs).2 "main".data).isSome = true) ∧
    (alLookup (git_versions demoRefs demoRevs).refs "main".data =
      orOpt (alLookup (classifyRefs demoRefs demoRevs).1 "main".data)
        (alLookup (classifyRefs demoRefs demoRevs).2 "main".data)) :=
  ⟨(git_versions_ref_classification demoRefs demoRevs).1 (demoRefs.take 3) []
      "zzz999".data "refs/tags/v9.9.9".data (Or.inl (by decide)),
   (git_versions_ref_classification demoRefs demoRevs).2.1 "v2.0.0".data "def456".data
      (by decide),
   (git_versions_ref_classification demoRefs demoRevs).2.2.2.1 "v1.2.0".data "abc123".data
      (by decide) (by decide),
   (git_versions_ref_classification demoRefs demoRevs).2.2.2.2.1 "main".data "abc123".data
      (by decide) (by decide),
   (git_versions_ref_classification demoRefs demoRevs).2.2.2.2.2 "main".data⟩

/-! Comparator laws, used to show the version sort relation is total and
transitive. -/

/-- The laws of a comparison function: antisymmetry of the three-way
result, transitivity of strict order, and congruence of comparison-equal
elements. -/
structure IsCmp {α : Type} (f : α → α → Ordering) : Prop where
  swap : ∀ a b, (f a b).swap = f b a
  lt_trans : ∀ {a b c}, f a b = .lt → f b c = .lt → f a c = .lt
  eq_congr : ∀ {a b}, f a b = .eq → ∀ c, f a c = f b c

theorem IsCmp.eq_congr_right {α : Type} {f : α → α → Ordering} (hf : IsCmp f)
    {a b : α} (h : f a b = .eq) (c : α) : f c a = f c b := by
  have h2 : f b a = .eq := by rw [← hf.swap a b, h]; rfl
  rw [← hf.swap a c, ← hf.swap b c, hf.eq_congr h2 c]

theorem IsCmp.gt_iff {α : Type} {f : α → α → Ordering} (hf : IsCmp f) (a b : α) :
    f a b = .gt ↔ f b a = .lt := by
  constructor
  · intro h
    rw [← hf.swap a b, h]
    rfl
  · intro h
    rw [← hf.swap b a, h]
    rfl

/-- Comparison by a projection. -/
def mapCmp {α β : Type} (p : α → β) (f : β → β → Ordering) (a b : α) : Ordering :=
  f (p a) (p b)

theorem IsCmp.mapCmp {α β : Type} (p : α → β) {f : β → β → Ordering} (hf : IsCmp f) :
    IsCmp (Bender.mapCmp p f) := by
  constructor
  · intro a b
    exact hf.swap (p a) (p b)
  · intro a b c h1 h2
    exact hf.lt_trans h1 h2
  · intro a b h c
    exact hf.eq_congr h (p c)

/-- Lexicographic combination of two comparators on the same type. -/
def thenCmp {α : Type} (f g : α → α → Ordering) (a b : α) : Ordering :=
  match f a b with
  | .eq => g a b
  | o => o

theorem thenCmp_of_eq {α : Type} {f g : α → α → Ordering} {a b : α} (h : f a b = .eq) :
    thenCmp f g a b = g a b := by
  unfold thenCmp
  rw [h]

theorem thenCmp_of_lt {α : Type} {f g : α → α → Ordering} {a b : α} (h : f a b = .lt) :
    thenCmp f g a b = .lt := by
  unfold thenCmp
  rw [h]

theorem thenCmp_of_gt {α : Type} {f g : α → α → Ordering} {a b : α} (h : f a b = .gt) :
    thenCmp f g a b = .gt := by
  unfold thenCmp
  rw [h]

theorem thenCmp_lt_cases {α : Type} {f g : α → α → Ordering} {a b : α}
    (h : thenCmp f g a b = .lt) : f a b = .lt ∨ (f a b = .eq ∧ g a b = .lt) := by
  unfold thenCmp at h
  cases hf : f a b with
  | lt => exact Or.inl rfl
  | eq => rw [hf] at h; exact Or.inr ⟨rfl, h⟩
  | gt => rw [hf] at h; exact Ordering.noConfusion h

theorem IsCmp.thenCmp {α : Type} {f g : α → α → Ordering} (hf : IsCmp f) (hg : IsCmp g) :
    IsCmp (Bender.thenCmp f g) := by
  constructor
  · intro a b
    unfold Bender.thenCmp
    cases hab : f a b with
    | eq =>
      have hba : f b a = .eq := by rw [← hf.swap a b, hab]; rfl
      rw [hba]
      exact hg.swap a b
    | lt =>
      have hba : f b a = .gt := by rw [← hf.swap a b, hab]; rfl
      rw [hba]
      rfl
    | gt =>
      have hba : f b a = .lt := by rw [← hf.swap a b, hab]; rfl
      rw [hba]
      rfl
  · intro a b c h1 h2
    rcases thenCmp_lt_cases h1 with hf1 | ⟨hf1, hg1⟩ <;>
      rcases thenCmp_lt_cases h2 with hf2 | ⟨hf2, hg2⟩
    · exact thenCmp_of_lt (hf.lt_trans hf1 hf2)
    · refine thenCmp_of_lt ?_
      rw [← hf.eq_congr_right hf2 a]
      exact hf1
    · refine thenCmp_of_lt ?_
      rw [hf.eq_congr hf1 c]
      exact hf2
    · have hfe : f a c = .eq := by
        rw [hf.eq_congr hf1 c]
        exact hf2
      rw [thenCmp_of_eq hfe]
      exact hg.lt_trans hg1 hg2
  · intro a b h c
    unfold Bender.thenCmp at h
    cases hab : f a b with
    | eq =>
      rw [hab] at h
      unfold Bender.thenCmp
      rw [hf.eq_congr hab c, hg.eq_congr h c]
    | lt => rw [hab] at h; exact Ordering.noConfusion h
    | gt => rw [hab] at h; exact Ordering.noConfusion h

theorem natCmp_isCmp : IsCmp (fun a b : Nat => compare a b) := by
  constructor
  · intro a b
    exact Nat.compare_swap a b
  · intro a b c h1 h2
    exact Nat.compare_eq_lt.mpr (Nat.lt_trans (Nat.compare_eq_lt.mp h1) (Nat.compare_eq_lt.mp h2))
  · intro a b h c
    rw [Nat.compare_eq_eq.mp h]

theorem cmpChar_isCmp : IsCmp cmpChar := by
  constructor
  · intro a b
    exact Nat.compare_swap a.toNat b.toNat
  · intro a b c h1 h2
    exact natCmp_isCmp.lt_trans h1 h2
  · intro a b h c
    have hn : a.toNat = b.toNat := Nat.compare_eq_eq.mp h
    have : a = b := by
      have := congrArg Char.ofNat hn
      rwa [Char.ofNat_toNat, Char.ofNat_toNat] at this
    rw [this]

theorem cmpChar_swap (a b : Char) : (cmpChar a b).swap = cmpChar b a :=
  Nat.compare_swap a.toNat b.toNat

theorem cmpChar_lt_trans {a b c : Char} (h1 : cmpChar a b = .lt) (h2 : cmpChar b c = .lt) :
    cmpChar a c = .lt :=
  natCmp_isCmp.lt_trans h1 h2

theorem cmpChar_eq_iff (a b : Char) : cmpChar a b = .eq ↔ a = b := by
  constructor
  · intro h
    have hn : a.toNat = b.toNat := Nat.compare_eq_eq.mp h
    have := congrArg Char.ofNat hn
    rwa [Char.ofNat_toNat, Char.ofNat_toNat] at this
  · intro h
    rw [h]
    exact Nat.compare_eq_eq.mpr rfl

theorem cmpStr_swap (a : Str) : ∀ b, (cmpStr a b).swap = cmpStr b a := by
  induction a with
  | nil =>
    intro b
    cases b <;> rfl
  | cons x as ih =>
    intro b
    cases b with
    | nil => rfl
    | cons y bs =>
      show (cmpStr (x :: as) (y :: bs)).swap = cmpStr (y :: bs) (x :: as)
      unfold cmpStr
      cases h : cmpChar x y with
      | eq =>
        have hba : cmpChar y x = .eq := by rw [← cmpChar_swap x y, h]; rfl
        rw [hba]
        exact ih bs
      | lt =>
        have hba : cmpChar y x = .gt := by rw [← cmpChar_swap x y, h]; rfl
        rw [hba]
        rfl
      | gt =>
        have hba : cmpChar y x = .lt := by rw [← cmpChar_swap x y, h]; rfl
        rw [hba]
        rfl

theorem cmpStr_eq_iff (a : Str) : ∀ b, cmpStr a b = .eq ↔ a = b := by
  induction a with
  | nil =>
    intro b
    cases b with
    | nil => simp [cmpStr]
    | cons y bs => simp [cmpStr]
  | cons x as ih =>
    intro b
    cases b with
    | nil => simp [cmpStr]
    | cons y bs =>
      unfold cmpStr
      cases h : cmpChar x y with
      | eq =>
        have hxy : x = y := (cmpChar_eq_iff x y).mp h
        subst hxy
        show cmpStr as bs = .eq ↔ x :: as = x :: bs
        rw [ih bs]
        simp
      | lt =>
        show Ordering.lt = Ordering.eq ↔ x :: as = y :: bs
        constructor
        · intro hh
          exact Ordering.noConfusion hh
        · intro hh
          injection hh with h1 h2
          subst h1
          have he : cmpChar x x = .eq := (cmpChar_eq_iff x x).mpr rfl
          rw [he] at h
          exact Ordering.noConfusion h
      | gt =>
        show Ordering.gt = Ordering.eq ↔ x :: as = y :: bs
        constructor
        · intro hh
          exact Ordering.noConfusion hh
        · intro hh
          injection hh with h1 h2
          subst h1
          have he : cmpChar x x = .eq := (cmpChar_eq_iff x x).mpr rfl
          rw [he] at h
          exact Ordering.noConfusion h

theorem cmpStr_lt_trans (a : Str) :
    ∀ b c, cmpStr a b = .lt → cmpStr b c = .lt → cmpStr a c = .lt := by
  induction a with
  | nil =>
    intro b c h1 h2
    cases b with
    | nil => exact Ordering.noConfusion h1
    | cons y bs =>
      cases c with
      | nil => exact Ordering.noConfusion h2
      | cons z cs => rfl
  | cons x as ih =>
    intro b c h1 h2
    cases b with
    | nil => exact Ordering.noConfusion h1
    | cons y bs =>
      cases c with
      | nil => exact Ordering.noConfusion h2
      | cons z cs =>
        unfold cmpStr at h1 h2 ⊢
        cases hxy : cmpChar x y with
        | lt =>
          cases hyz : cmpChar y z with
          | lt =>
            rw [cmpChar_lt_trans hxy hyz]
          | eq =>
            have hy : y = z := (cmpChar_eq_iff y z).mp hyz
            subst hy
            rw [hxy]
          | gt =>
            rw [hyz] at h2
            exact Ordering.noConfusion h2
        | eq =>
          have hx : x = y := (cmpChar_eq_iff x y).mp hxy
          subst hx
          rw [hxy] at h1
          have h1t : cmpStr as bs = .lt := h1
          cases hyz : cmpChar x z with
          | lt => rfl
          | eq =>
            have hz : x = z := (cmpChar_eq_iff x z).mp hyz
            subst hz
            rw [hyz] at h2
            have h2t : cmpStr bs cs = .lt := h2
            show cmpStr as cs = .lt
            exact ih bs cs h1t h2t
          | gt =>
            rw [hyz] at h2
            exact Ordering.noConfusion h2
        | gt =>
          rw [hxy] at h1
          exact Ordering.noConfusion h1

theorem cmpStr_isCmp : IsCmp cmpStr := by
  constructor
  · intro a b
    exact cmpStr_swap a b
  · intro a b c h1 h2
    exact cmpStr_lt_trans a b c h1 h2
  · intro a b h c
    rw [(cmpStr_eq_iff a b).mp h]

theorem cmpVersion_eq_thenCmp :
    cmpVersion = thenCmp (mapCmp Version.major (fun a b : Nat => compare a b))
      (thenCmp (mapCmp Version.minor (fun a b : Nat => compare a b))
        (mapCmp Version.patch (fun a b : Nat => compare a b))) := rfl

theorem cmpVersion_isCmp : IsCmp cmpVersion := by
  rw [cmpVersion_eq_thenCmp]
  exact IsCmp.thenCmp (natCmp_isCmp.mapCmp Version.major)
    (IsCmp.thenCmp (natCmp_isCmp.mapCmp Version.minor)
      (natCmp_isCmp.mapCmp Version.patch))

theorem cmpPair_eq_thenCmp :
    cmpPair = thenCmp (mapCmp Prod.fst cmpVersion) (mapCmp Prod.snd cmpStr) := rfl

theorem cmpPair_isCmp : IsCmp cmpPair := by
  rw [cmpPair_eq_thenCmp]
  exact IsCmp.thenCmp (cmpVersion_isCmp.mapCmp Prod.fst) (cmpStr_isCmp.mapCmp Prod.snd)

instance : IsTotal (Version × Str) descRel := by
  constructor
  intro a b
  by_cases h : cmpPair a b = .lt
  · right
    intro hba
    have := cmpPair_isCmp.gt_iff b a
    rw [hba] at this
    have hgt : cmpPair a b = .gt := (cmpPair_isCmp.gt_iff a b).mpr hba
    rw [h] at hgt
    exact Ordering.noConfusion hgt
  · left
    exact h

instance : IsTrans (Version × Str) descRel := by
  constructor
  intro a b c h1 h2 hac
  cases hab : cmpPair a b with
  | lt => exact h1 hab
  | eq =>
    apply h2
    rw [← cmpPair_isCmp.eq_congr hab c]
    exact hac
  | gt =>
    cases hbc : cmpPair b c with
    | lt => exact h2 hbc
    | eq =>
      apply h1
      rw [cmpPair_isCmp.eq_congr_right hbc a]
      exact hac
    | gt =>
      have hba : cmpPair b a = .lt := (cmpPair_isCmp.gt_iff a b).mp hab
      have hcb : cmpPair c b = .lt := (cmpPair_isCmp.gt_iff b c).mp hbc
      have hca : cmpPair c a = .lt := cmpPair_isCmp.lt_trans hcb hba
      have : cmpPair a c = .gt := (cmpPair_isCmp.gt_iff a c).mpr hca
      rw [hac] at this
      exact Ordering.noConfusion this

/-- C5: the versions sequence of `git_versions` is a permutation of
exactly the `(version, hash)` pairs of the classified tags whose name
starts with `v` and whose suffix parses as a semantic version — tags of
any other shape contribute nothing — and it is sorted descending with
respect to the pair comparison (version precedence first). -/
theorem git_versions_semver_versions (refs : List (Str × Str)) (revs : List Str) :
    List.Perm (git_versions refs revs).versions
      (extractVersions (classifyRefs refs revs).1) ∧
    List.Sorted descRel (git_versions refs revs).versions ∧
    (∀ (v : Version) (hsh : Str),
      (v, hsh) ∈ extractVersions (classifyRefs refs revs).1 ↔
      ∃ rest, ('v' :: rest, hsh) ∈ (classifyRefs refs revs).1 ∧
        parseVersion rest = some v) := by
  refine ⟨List.perm_insertionSort descRel _, List.sorted_insertionSort descRel _, ?_⟩
  intro v hsh
  unfold extractVersions
  rw [List.mem_filterMap]
  constructor
  · rintro ⟨⟨tag, h0⟩, hp, hmap⟩
    cases tag with
    | nil => exact Option.noConfusion hmap
    | cons c rest =>
      have hmap2 : Option.map (fun v => (v, h0))
          (if c = 'v' then parseVersion rest else none) = some (v, hsh) := hmap
      by_cases hc : c = 'v'
      · rw [if_pos hc] at hmap2
        cases hparse : parseVersion rest with
        | none => rw [hparse] at hmap2; exact Option.noConfusion hmap2
        | some v2 =>
          rw [hparse] at hmap2
          have hpair := Option.some.inj hmap2
          have hv : v2 = v := congrArg Prod.fst hpair
          have hh : h0 = hsh := congrArg Prod.snd hpair
          subst hc hv hh
          exact ⟨rest, hp, hparse⟩
      · rw [if_neg hc] at hmap2
        exact Option.noConfusion hmap2
  · rintro ⟨rest, hmem, hparse⟩
    refine ⟨('v' :: rest, hsh), hmem, ?_⟩
    show Option.map (fun v => (v, hsh))
      (if ('v' : Char) = 'v' then parseVersion rest else none) = some (v, hsh)
    rw [if_pos rfl, hparse]
    rfl

/-- Witness for C5: on the specification's example the sorted versions
sequence is exactly `[(2.0.0, def456), (1.2.0, abc123)]`, and membership
is characterized by the `v`-prefixed parse. -/
theorem git_versions_semver_versions_witness :
    List.Perm (git_versions demoRefs demoRevs).versions
      (extractVersions (classifyRefs demoRefs demoRevs).1) ∧
    List.Sorted descRel (git_versions demoRefs demoRevs).versions ∧
    (⟨1, 2, 0, none⟩, "abc123".data) ∈ extractVersions (classifyRefs demoRefs demoRevs).1 ∧
    (git_versions demoRefs demoRevs).versions =
      [(⟨2, 0, 0, none⟩, "def456".data), (⟨1, 2, 0, none⟩, "abc123".data)] :=
  ⟨(git_versions_semver_versions demoRefs demoRevs).1,
   (git_versions_semver_versions demoRefs demoRevs).2.1,
   ((git_versions_semver_versions demoRefs demoRevs).2.2 ⟨1, 2, 0, none⟩
       "abc123".data).mpr ⟨"1.2.0".data, by decide, by decide⟩,
   by decide⟩

/-- C9: the versions sequence of `git_versions` is ordered by the whole
pair comparison: an earlier entry's version never compares below a later
entry's, and when two entries carry precedence-equal versions the earlier
hash string is lexicographically the larger — a deterministic tie-break
by descending hash. -/
theorem git_versions_sort_tie_break (refs : List (Str × Str)) (revs : List Str)
    (i j : Nat) (hi : i < (git_versions refs revs).versions.length)
    (hj : j < (git_versions refs revs).versions.length) (hij : i < j) :
    cmpVersion ((git_versions refs revs).versions.get ⟨i, hi⟩).1
        ((git_versions refs revs).versions.get ⟨j, hj⟩).1 ≠ .lt ∧
    (cmpVersion ((git_versions refs revs).versions.get ⟨i, hi⟩).1
        ((git_versions refs revs).versions.get ⟨j, hj⟩).1 = .eq →
      cmpStr ((git_versions refs revs).versions.get ⟨i, hi⟩).2
        ((git_versions refs revs).versions.get ⟨j, hj⟩).2 ≠ .lt) := by
  have hsorted : List.Sorted descRel (git_versions refs revs).versions :=
    List.sorted_insertionSort descRel _
  have hrel : descRel ((git_versions refs revs).versions.get ⟨i, hi⟩)
      ((git_versions refs revs).versions.get ⟨j, hj⟩) :=
    hsorted.rel_get_of_lt hij
  unfold descRel at hrel
  rw [cmpPair_eq_thenCmp] at hrel
  constructor
  · intro hlt
    exact hrel (thenCmp_of_lt hlt)
  · intro heq hlt
    apply hrel
    have heq2 : mapCmp Prod.fst cmpVersion ((git_versions refs revs).versions.get ⟨i, hi⟩)
        ((git_versions refs revs).versions.get ⟨j, hj⟩) = .eq := heq
    rw [thenCmp_of_eq heq2]
    exact hlt

/-- The refs listing of a repository with two tags that parse to
precedence-equal versions (differing only in build metadata) pointing at
different hashes. -/
def tieRefs : List (Str × Str) :=
  [("bbb".data, "refs/tags/v1.0.0+linux".data),
   ("aaa".data, "refs/tags/v1.0.0+macos".data)]

/-- The known revisions of the tie-break example. -/
def tieRevs : List Str := ["aaa".data, "bbb".data]

/-- Witness for C9: in the tie-break example the two precedence-equal
versions are ordered with the lexicographically larger hash first. -/
theorem git_versions_sort_tie_break_witness :
    cmpVersion ((git_versions tieRefs tieRevs).versions.get ⟨0, by decide⟩).1
        ((git_versions tieRefs tieRevs).versions.get ⟨1, by decide⟩).1 = .eq ∧
    ((git_versions tieRefs tieRevs).versions.get ⟨0, by decide⟩).2 = "bbb".data ∧
    ((git_versions tieRefs tieRevs).versions.get ⟨1, by decide⟩).2 = "aaa".data ∧
    cmpStr ((git_versions tieRefs tieRevs).versions.get ⟨0, by decide⟩).2
        ((git_versions tieRefs tieRevs).versions.get ⟨1, by decide⟩).2 ≠ .lt :=
  ⟨by decide, by decide, by decide,
   (git_versions_sort_tie_break tieRefs tieRevs 0 1 (by decide) (by decide) (by decide)).2
     (by decide)⟩

/-- A trivial stand-in digest used in concrete examples (any function may
play the role of the external BLAKE2 collaborator). -/
def digest0 : Str → Str := fun s => s

/-- Counterexample for C6: when the mirror already exists (the
incremental-fetch path), a fetch failure is surfaced exactly as produced
by the subprocess layer — it is not wrapped by this layer in a chain
naming the mirror directory. -/
theorem git_database_update_fetch_unwrapped :
    git_database "/data".data digest0 "dep".data "url".data (Except.ok ()) true
      (Except.ok ()) (Except.ok ()) (Except.error (Error.new "fetch failed".data)) =
      Except.error (Error.new "fetch failed".data) ∧
    (∀ msg cause, Error.new "fetch failed".data ≠ Error.chain msg cause) :=
  ⟨rfl, fun _ _ h => Error.noConfusion h⟩

/-- C6 (amended): directory-creation failure is wrapped with a message
naming the mirror directory in both paths; in the first-time-clone path
every subprocess failure (init, remote add, fetch) is wrapped with a
message naming the mirror directory; in the incremental-fetch path a
fetch failure is propagated to the caller unchanged (still a single
error, but not wrapped by this layer); and on success the mirror
directory is returned. -/
theorem git_database_error_wrapping (database : Str) (digest : Str → Str) (name url : Str)
    (configExists : Bool) (initRes remoteAddRes fetchRes : Except Error Unit) :
    (∀ cause, git_database database digest name url (Except.error cause) configExists
        initRes remoteAddRes fetchRes =
      Except.error (Error.chain ("Failed to create git database directory ".data ++
        quoted (gitDbDir database digest name url) ++ ".".data) cause)) ∧
    (∀ cause, initRes = Except.error cause →
      git_database database digest name url (Except.ok ()) false initRes remoteAddRes
        fetchRes =
      Except.error (Error.chain ("Failed to initialize git database in ".data ++
        quoted (gitDbDir database digest name url) ++ ".".data) cause)) ∧
    (initRes = Except.ok () → ∀ cause, remoteAddRes = Except.error cause →
      git_database database digest name url (Except.ok ()) false initRes remoteAddRes
        fetchRes =
      Except.error (Error.chain ("Failed to initialize git database in ".data ++
        quoted (gitDbDir database digest name url) ++ ".".data) cause)) ∧
    (initRes = Except.ok () → remoteAddRes = Except.ok () → ∀ cause,
      fetchRes = Except.error cause →
      git_database database digest name url (Except.ok ()) false initRes remoteAddRes
        fetchRes =
      Except.error (Error.chain ("Failed to initialize git database in ".data ++
        quoted (gitDbDir database digest name url) ++ ".".data) cause)) ∧
    (initRes = Except.ok () → remoteAddRes = Except.ok () → fetchRes = Except.ok () →
      git_database database digest name url (Except.ok ()) false initRes remoteAddRes
        fetchRes = Except.ok (gitDbDir database digest name url)) ∧
    (∀ e, fetchRes = Except.error e →
      git_database database digest name url (Except.ok ()) true initRes remoteAddRes
        fetchRes = Except.error e) ∧
    (fetchRes = Except.ok () →
      git_database database digest name url (Except.ok ()) true initRes remoteAddRes
        fetchRes = Except.ok (gitDbDir database digest name url)) := by
  refine ⟨fun cause => rfl, ?_, ?_, ?_, ?_, ?_, ?_⟩
  · intro cause h
    subst h
    rfl
  · intro h1 cause h2
    subst h1
    subst h2
    rfl
  · intro h1 h2 cause h3
    subst h1
    subst h2
    subst h3
    rfl
  · intro h1 h2 h3
    subst h1
    subst h2
    subst h3
    rfl
  · intro e h
    subst h
    rfl
  · intro h
    subst h
    rfl

/-- Witness for C6 (amended): a concrete clone-path fetch failure comes
back wrapped in the chain naming the mirror directory. -/
theorem git_database_error_wrapping_witness :
    git_database "/data".data digest0 "dep".data "url".data (Except.ok ()) false
      (Except.ok ()) (Except.ok ()) (Except.error (Error.new "fetch failed".data)) =
      Except.error (Error.chain ("Failed to initialize git database in ".data ++
        quoted (gitDbDir "/data".data digest0 "dep".data "url".data) ++ ".".data)
        (Error.new "fetch failed".data)) :=
  (git_database_error_wrapping "/data".data digest0 "dep".data "url".data false
      (Except.ok ()) (Except.ok ()) (Except.error (Error.new "fetch failed".data))).2.2.2.1
    rfl rfl (Error.new "fetch failed".data) rfl

/-- C7: the checkout directory name is the dependency name, a dash, and
the first 16 characters of the digest of the remote url followed by the
debug rendering of the consuming root; the same root always reproduces
the same name; different roots always produce different digest inputs,
and produce different names whenever the truncated digest separates the
two inputs (the spec's collision-resistance assumption on BLAKE2). -/
theorem checkout_name_scoping (digest : Str → Str) (n u r1 r2 : Str) :
    (checkout_name digest n u r1 =
      n ++ "-".data ++ (digest (u ++ quoted r1)).take 16) ∧
    (r1 = r2 → checkout_name digest n u r1 = checkout_name digest n u r2) ∧
    (checkoutHashInput u r1 = checkoutHashInput u r2 → r1 = r2) ∧
    ((digest (checkoutHashInput u r1)).take 16 ≠ (digest (checkoutHashInput u r2)).take 16 →
      checkout_name digest n u r1 ≠ checkout_name digest n u r2) := by
  refine ⟨rfl, fun h => by rw [h], ?_, ?_⟩
  · intro h
    unfold checkoutHashInput at h
    have h2 := List.append_cancel_left h
    unfold quoted at h2
    injection h2 with h3 h4
    exact List.append_cancel_right h4
  · intro hd he
    apply hd
    unfold checkout_name at he
    exact List.append_cancel_left he

/-- Witness for C7: with a stand-in digest, two distinct roots yield
distinct checkout names, and an equal root reproduces the name. -/
theorem checkout_name_scoping_witness :
    (checkout_name digest0 "dep".data "url".data "/home/a".data =
      checkout_name digest0 "dep".data "url".data "/home/a".data) ∧
    checkout_name digest0 "dep".data "url".data "/home/a".data ≠
      checkout_name digest0 "dep".data "url".data "/home/b".data :=
  ⟨(checkout_name_scoping digest0 "dep".data "url".data "/home/a".data "/home/a".data).2.1
      rfl,
   (checkout_name_scoping digest0 "dep".data "url".data "/home/a".data
      "/home/b".data).2.2.2 (by decide)⟩

/-- The registry-sourced entry used in the C8 counterexample. -/
def regEntry : DependencyEntry :=
  { name := "reg".data, source := DependencySource.Registry, revision := none, version := none }

/-- Counterexample for C8: version discovery for a registry-sourced
dependency aborts with an `unimplemented` panic — a crash, not an error
result — and so does registry checkout. -/
theorem dependency_versions_registry_crash :
    dependency_versions regEntry (Except.ok "db".data) (Except.ok []) (Except.ok []) =
      Outcome.crash registryVersionsMsg ∧
    (∀ e, dependency_versions regEntry (Except.ok "db".data) (Except.ok [])
      (Except.ok []) ≠ Outcome.err e) ∧
    checkout regEntry "/data".data "/root".data digest0 (Except.ok ()) =
      Outcome.crash registryCheckoutMsg :=
  ⟨rfl, fun _ h => Outcome.noConfusion h, rfl⟩

/-- C8 (amended): path and git version discovery return result values
(never a crash), the stubbed git working-tree checkout fails with an
explicit, distinguishable error result, and the path checkout returns
its configured path — while the registry paths abort with an
`unimplemented` panic instead of returning an error result. -/
theorem core_failure_propagation (dep : DependencyEntry) (dbResult : Except Error Str)
    (listRefs : Except Error (List (Str × Str))) (listRevs : Except Error (List Str))
    (database root : Str) (digest : Str → Str) (createDir : Except Error Unit) :
    (dep.source = DependencySource.Registry →
      dependency_versions dep dbResult listRefs listRevs =
        Outcome.crash registryVersionsMsg ∧
      checkout dep database root digest createDir = Outcome.crash registryCheckoutMsg) ∧
    (∀ p, dep.source = DependencySource.Path p →
      dependency_versions dep dbResult listRefs listRevs = Outcome.ok DependencyVersions.Path ∧
      checkout dep database root digest createDir = Outcome.ok p) ∧
    (∀ url, dep.source = DependencySource.Git url →
      ∀ m, dependency_versions dep dbResult listRefs listRevs ≠ Outcome.crash m) ∧
    (∀ path url rev, checkout_git path url rev =
      Outcome.err (Error.new "Checkout of git dependency not implemented".data)) := by
  refine ⟨?_, ?_, ?_, fun path url rev => rfl⟩
  · intro h
    constructor
    · unfold dependency_versions
      rw [h]
    · unfold checkout
      rw [h]
  · intro p h
    constructor
    · unfold dependency_versions
      rw [h]
    · unfold checkout
      rw [h]
  · intro url h m
    unfold dependency_versions
    rw [h]
    cases dbResult with
    | error e => exact fun hc => Outcome.noConfusion hc
    | ok d =>
      cases listRefs with
      | error e => exact fun hc => Outcome.noConfusion hc
      | ok refs =>
        cases listRevs with
        | error e => exact fun hc => Outcome.noConfusion hc
        | ok revs => exact fun hc => Outcome.noConfusion hc

/-- The path-sourced entry used in the C8 witness. -/
def pathEntry : DependencyEntry :=
  { name := "loc".data, source := DependencySource.Path "/src/loc".data,
    revision := none, version := none }

/-- Witness for C8 (amended): a path dependency returns its configured
path from both version discovery and checkout, and a git dependency's
version discovery surfaces a database failure as an error result. -/
theorem core_failure_propagation_witness :
    (dependency_versions pathEntry (Except.ok "db".data) (Except.ok []) (Except.ok []) =
      Outcome.ok DependencyVersions.Path ∧
     checkout pathEntry "/data".data "/root".data digest0 (Except.ok ()) =
      Outcome.ok "/src/loc".data) ∧
    (∀ m, dependency_versions
      { name := "g".data, source := DependencySource.Git "u".data,
        revision := none, version := none }
      (Except.error (Error.new "db".data)) (Except.ok []) (Except.ok []) ≠
        Outcome.crash m) :=
  ⟨(core_failure_propagation pathEntry (Except.ok "db".data) (Except.ok []) (Except.ok [])
      "/data".data "/root".data digest0 (Except.ok ())).2.1 "/src/loc".data rfl,
   fun m =>
    (core_failure_propagation
      { name := "g".data, source := DependencySource.Git "u".data,
        revision := none, version := none }
      (Except.error (Error.new "db".data)) (Except.ok []) (Except.ok [])
      "/data".data "/root".data digest0 (Except.ok ())).2.2.1 "u".data rfl m⟩

/-- The git-sourced entry with no pinned revision used in the C10
counterexample. -/
def gitNoRev : DependencyEntry :=
  { name := "g".data, source := DependencySource.Git "u".data,
    revision := none, version := none }

/-- Counterexample for C10: when directory creation fails, `checkout` on
a git entry whose revision is `None` returns an error result — so an
error result is not only possible when a revision is present. -/
theorem checkout_error_without_revision :
    gitNoRev.revision = none ∧
    checkout gitNoRev "/data".data "/root".data digest0
      (Except.error (Error.new "io".data)) =
      Outcome.err (Error.chain ("Failed to create git checkout directory ".data ++
        quoted (checkoutDir "/data".data digest0 "g".data "u".data "/root".data) ++
        ".".data) (Error.new "io".data)) :=
  ⟨rfl, rfl⟩

/-- C10 (amended): every entry produced by `load_dependency` carries no
revision; `checkout` on a git entry with no revision panics on the
`unwrap` once directory creation has succeeded; with a revision present
the git path never panics; and an error result for a no-revision git
entry can arise only from directory-creation failure. -/
theorem checkout_revision_precondition (name url : Str) (v : Option Version)
    (database root : Str) (digest : Str → Str) (createDir : Except Error Unit) :
    (∀ (n2 : Str) (cfg : ConfigDependency), (loadDependencyEntry n2 cfg).revision = none) ∧
    (checkout ⟨name, DependencySource.Git url, none, v⟩
        database root digest (Except.ok ()) =
      Outcome.crash unwrapNoneMsg) ∧
    (∀ rev m, checkout ⟨name, DependencySource.Git url, some rev, v⟩
        database root digest createDir ≠
      Outcome.crash m) ∧
    (∀ e, checkout ⟨name, DependencySource.Git url, none, v⟩
        database root digest createDir = Outcome.err e →
      ∃ cause, createDir = Except.error cause) := by
  refine ⟨?_, rfl, ?_, ?_⟩
  · intro n2 cfg
    cases cfg <;> rfl
  · intro rev m
    cases createDir with
    | error c => exact fun hc => Outcome.noConfusion hc
    | ok u2 => exact fun hc => Outcome.noConfusion hc
  · intro e h
    cases createDir with
    | error c => exact ⟨c, rfl⟩
    | ok u2 => exact absurd h (fun hc => Outcome.noConfusion hc)

/-- Witness for C10 (amended): concrete instances — `load_dependency`
yields no revision, the no-revision checkout crashes on `unwrap` when
directory creation succeeds, and a concrete error result traces back to
a directory-creation failure. -/
theorem checkout_revision_precondition_witness :
    (loadDependencyEntry "d".data (ConfigDependency.GitRevision "u".data "r".data)).revision
      = none ∧
    checkout ⟨"g".data, DependencySource.Git "u".data, none, none⟩
        "/data".data "/root".data digest0 (Except.ok ()) =
      Outcome.crash unwrapNoneMsg ∧
    (∃ cause, (Except.error (Error.new "io".data) : Except Error Unit) =
      Except.error cause) :=
  ⟨(checkout_revision_precondition "g".data "u".data none "/data".data "/root".data digest0
      (Except.ok ())).1 "d".data (ConfigDependency.GitRevision "u".data "r".data),
   (checkout_revision_precondition "g".data "u".data none "/data".data "/root".data digest0
      (Except.ok ())).2.1,
   (checkout_revision_precondition "g".data "u".data none "/data".data "/root".data digest0
      (Except.error (Error.new "io".data))).2.2.2 (Error.chain
        ("Failed to create git checkout directory ".data ++
          quoted (checkoutDir "/data".data digest0 "g".data "u".data "/root".data) ++
          ".".data) (Error.new "io".data)) rfl⟩

end Bender
